import Mathlib

/-!
Formal model of `cfrac2.py`: a continued-fraction expander (`CFrac`) and a
rational-approximation searcher (`CFracApprox`).

Python floats are modelled as exact rationals (`ℚ`); every float value this
program manipulates is a rational number, and the algorithms use only field
operations, truncation and comparisons on them.  The cents-error
computation uses the real logarithm (`Real.logb 2`), matching
`math.log(_, 2)`.  A Python exception (ZeroDivisionError from
`fractions.Fraction(den, num)` with `num = 0`, or the math-domain error of
`log` on a non-positive argument) is modelled by `Option`: `none` means the
call raises.
-/

/-- Python `int(x)`: truncation toward zero. -/
def pyIntQ (q : ℚ) : ℤ := if q < 0 then ⌈q⌉ else ⌊q⌋

/-- Python `int(x)` on a real argument: truncation toward zero. -/
noncomputable def pyIntR (x : ℝ) : ℤ := if x < 0 then ⌈x⌉ else ⌊x⌋

/-- The `while n > 0.0` loop of `CFrac` (cfrac2.py lines 17-27).  The
fuel argument is the remaining `lenLimit` budget: Python decrements
`lenLimit` after each `yield` and returns when it reaches `0`, so a call
with fuel `0` emits nothing.  Each iteration sets `n := 1/n`, truncates to
get the next term `a = int(n)`, stops *without emitting* when
`a > bigTerm`, and otherwise emits `a` and continues on the fractional
remainder `b = n - a`. -/
def CFracLoop (bigTerm : ℤ) : ℕ → ℚ → List ℤ
  | 0, _ => []
  | fuel + 1, n =>
    if 0 < n then
      if bigTerm < pyIntQ (1 / n) then []
      else pyIntQ (1 / n) :: CFracLoop bigTerm fuel (1 / n - (pyIntQ (1 / n) : ℚ))
    else []

/-- `CFrac(n, bigTerm, lenLimit)` (cfrac2.py lines 8-27), as the list of
terms the generator yields.  When `n > 1.0` the integer part `int(n)` is
emitted first (with *no* `bigTerm` check), one unit of the length budget
is consumed, and the loop continues on the fractional remainder;
otherwise the loop runs on `n` directly.  For `lenLimit = 0` the Python
generator's `lenLimit == 0` test can never fire and the expansion is not
length-bounded; the model then truncates after the first term.  Every
claim assumes a positive `lenLimit`, where the model is exact. -/
def CFrac (n : ℚ) (bigTerm : ℤ) (lenLimit : ℕ) : List ℤ :=
  if 1 < n then pyIntQ n :: CFracLoop bigTerm (lenLimit - 1) (n - (pyIntQ n : ℚ))
  else CFracLoop bigTerm lenLimit n

/-- One iteration of the `for t in rcf` fold of `CFracApprox`
(cfrac2.py lines 35-41): with accumulator `(num, den)` and integer term
`t` (so `t.numerator = t`, `t.denominator = 1`), compute
`(num, den) := (num*1 + t*den, den*1)` and then swap the pair. -/
def foldStep (p : ℤ × ℤ) (t : ℤ) : ℤ × ℤ :=
  (p.2 * 1, p.1 * 1 + t * p.2)

/-- The full fold of `CFracApprox` over a reversed term list, starting
from `(num, den) = (0, 1)` (cfrac2.py lines 33-41). -/
def foldTerms (rcf : List ℤ) : ℤ × ℤ := rcf.foldl foldStep (0, 1)

/-- The `(num, den)` pairs evaluated by the `while True` loop of
`CFracApprox`, in evaluation order: the loop folds the current `rcf`,
breaks if `len(rcf) < 2`, and otherwise continues with `rcf[1:]`
(cfrac2.py lines 32-52). -/
def candidatesLoop : List ℤ → List (ℤ × ℤ)
  | [] => [foldTerms []]
  | [t] => [foldTerms [t]]
  | t :: u :: rest => foldTerms (t :: u :: rest) :: candidatesLoop (u :: rest)

/-- The candidate `(num, den)` pairs `CFracApprox(val, cf)` evaluates, in
evaluation order (`rcf` starts as `list(reversed(cf))`). -/
def CFracApproxCandidates (cf : List ℤ) : List (ℤ × ℤ) :=
  candidatesLoop cf.reverse

/-- The signed cents error attached to an accepted candidate `f`
(cfrac2.py line 45): `err = - int((log(f, 2) - log(val, 2)) * 1200)`,
where `int` truncates toward zero. -/
noncomputable def centsErr (val : ℝ) (f : ℚ) : ℤ :=
  - pyIntR ((Real.logb 2 (f : ℝ) - Real.logb 2 val) * 1200)

/-- Cents-error formula as the C5 claim words it: the scaled log
difference is rounded to the *nearest* integer and the sign is flipped.
Stated for comparison with `centsErr`, which is what the code computes. -/
noncomputable def specCentsErr (val : ℝ) (f : ℚ) : ℤ :=
  - round ((Real.logb 2 (f : ℝ) - Real.logb 2 val) * 1200)

/-- Evaluation of one candidate pair `(num, den)` by `CFracApprox`
(cfrac2.py lines 42-49).  Result `none`: a Python exception
(`Fraction(den, num)` with `num = 0`, or `math.log` on a non-positive
argument).  Result `some none`: the candidate is discarded by a filter.
Result `some (some (f, e))`: the candidate is appended to `answer` as the
reduced fraction `f = den / num` with attached cents error `e`. -/
noncomputable def evalCandidate (val : ℝ) (p : ℤ × ℤ) : Option (Option (ℚ × ℤ)) :=
  if p.2 ≤ 1024 ∧ p.1 ≤ 1024 then
    if p.1 = 0 then none
    else
      if 0 < (p.2 : ℚ) / (p.1 : ℚ) ∧ 0 < val then
        if centsErr val ((p.2 : ℚ) / (p.1 : ℚ)) * centsErr val ((p.2 : ℚ) / (p.1 : ℚ)) < 30 * 30
        then some (some ((p.2 : ℚ) / (p.1 : ℚ), centsErr val ((p.2 : ℚ) / (p.1 : ℚ))))
        else some none
      else none
  else some none

/-- The `while True` loop of `CFracApprox` on the current reversed list
`rcf`, collecting the appended approximations in evaluation order; `none`
propagates a Python exception (which aborts the whole call). -/
noncomputable def approxLoop (val : ℝ) : List ℤ → Option (List (ℚ × ℤ))
  | [] =>
    match evalCandidate val (foldTerms []) with
    | none => none
    | some o => some o.toList
  | [t] =>
    match evalCandidate val (foldTerms [t]) with
    | none => none
    | some o => some o.toList
  | t :: u :: rest =>
    match evalCandidate val (foldTerms (t :: u :: rest)) with
    | none => none
    | some o => (approxLoop val (u :: rest)).map (fun l => o.toList ++ l)

/-- `CFracApprox(val, cf)` (cfrac2.py lines 29-53): run the loop on
`list(reversed(cf))` and return `list(reversed(answer))`.  Each kept
approximation is the pair (reduced fraction, cents error) that the source
renders as the string `"num/den(err)"`. -/
noncomputable def CFracApprox (val : ℝ) (cf : List ℤ) : Option (List (ℚ × ℤ)) :=
  (approxLoop val cf.reverse).map List.reverse

/-- What a candidate pair contributes to the result list: its appended
approximation, if any (exceptions erased). -/
noncomputable def keptApprox (val : ℝ) (p : ℤ × ℤ) : Option (ℚ × ℤ) :=
  (evalCandidate val p).getD none

/-- Candidate pairs as the C6 claim describes the search: suffixes of
`cf`, starting with the one containing only the last term, growing by
prepending the next-earlier term, stopping once the suffix holds all but
the first term; each suffix is folded from its reversed form. -/
def specCandidates (cf : List ℤ) : List (ℤ × ℤ) :=
  (List.range' 1 (cf.length - 1)).map
    (fun k => foldTerms ((cf.drop (cf.length - k)).reverse))

/-! Helper lemmas: evaluating `pyIntQ`, `CFracLoop` and `CFrac` on
concrete inputs (rational arithmetic does not reduce definitionally, so
these are established by rewriting). -/

theorem pyIntQ_eq (q : ℚ) (z : ℤ) (h0 : 0 ≤ q) (h1 : (z : ℚ) ≤ q)
    (h2 : q < z + 1) : pyIntQ q = z := by
  rw [pyIntQ, if_neg (not_lt.mpr h0)]
  exact Int.floor_eq_iff.mpr ⟨h1, by exact_mod_cast h2⟩

theorem pyIntQ_eq_floor (q : ℚ) (h0 : 0 ≤ q) : pyIntQ q = ⌊q⌋ := by
  rw [pyIntQ, if_neg (not_lt.mpr h0)]

theorem CFracLoop_stop (bigTerm : ℤ) (fuel : ℕ) (n : ℚ) (hn : ¬ 0 < n) :
    CFracLoop bigTerm fuel n = [] := by
  cases fuel with
  | zero => rfl
  | succ k => rw [CFracLoop, if_neg hn]

theorem CFracLoop_emit (bigTerm : ℤ) (fuel : ℕ) (n : ℚ) (a : ℤ)
    (hf : fuel ≠ 0) (hn : 0 < n) (ha : pyIntQ (1 / n) = a)
    (hbig : ¬ bigTerm < a) :
    CFracLoop bigTerm fuel n =
      a :: CFracLoop bigTerm (fuel - 1) (1 / n - (a : ℚ)) := by
  cases fuel with
  | zero => exact absurd rfl hf
  | succ k => rw [CFracLoop, if_pos hn, ha, if_neg hbig, Nat.add_sub_cancel]

theorem CFrac_one_eval : CFrac 1 1000 100 = [1] := by
  rw [CFrac, if_neg (by norm_num : ¬ (1 : ℚ) < 1),
    CFracLoop_emit 1000 100 1 1 (by norm_num) (by norm_num)
      (pyIntQ_eq _ 1 (by norm_num) (by norm_num) (by norm_num))
      (by norm_num),
    CFracLoop_stop 1000 99 _ (by norm_num)]

theorem CFrac_big_eval : CFrac (5001 / 2) 1000 100 = [2500, 2] := by
  rw [CFrac, if_pos (by norm_num : (1 : ℚ) < 5001 / 2),
    pyIntQ_eq (5001 / 2) 2500 (by norm_num) (by norm_num) (by norm_num),
    show (5001 / 2 - ((2500 : ℤ) : ℚ)) = 1 / 2 by norm_num,
    CFracLoop_emit 1000 99 (1 / 2) 2 (by norm_num) (by norm_num)
      (pyIntQ_eq _ 2 (by norm_num) (by norm_num) (by norm_num))
      (by norm_num),
    CFracLoop_stop 1000 98 _ (by norm_num)]

theorem CFrac_three_halves_eval : CFrac (3 / 2) 1000 100 = [1, 2] := by
  rw [CFrac, if_pos (by norm_num : (1 : ℚ) < 3 / 2),
    pyIntQ_eq (3 / 2) 1 (by norm_num) (by norm_num) (by norm_num),
    show (3 / 2 - ((1 : ℤ) : ℚ)) = 1 / 2 by norm_num,
    CFracLoop_emit 1000 99 (1 / 2) 2 (by norm_num) (by norm_num)
      (pyIntQ_eq _ 2 (by norm_num) (by norm_num) (by norm_num))
      (by norm_num),
    CFracLoop_stop 1000 98 _ (by norm_num)]

/-- Every term the `while` loop of `CFrac` emits is `≤ bigTerm`. -/
theorem CFracLoop_le_bigTerm (bigTerm : ℤ) :
    ∀ (fuel : ℕ) (m : ℚ), ∀ u ∈ CFracLoop bigTerm fuel m, u ≤ bigTerm := by
  intro fuel
  induction fuel with
  | zero => intro m u hu; simp [CFracLoop] at hu
  | succ k ih =>
    intro m u hu
    rw [CFracLoop] at hu
    by_cases hm : 0 < m
    · rw [if_pos hm] at hu
      by_cases hbig : bigTerm < pyIntQ (1 / m)
      · rw [if_pos hbig] at hu; simp at hu
      · rw [if_neg hbig] at hu
        rcases List.mem_cons.mp hu with h | h
        · exact h ▸ le_of_not_lt hbig
        · exact ih _ u h
    · rw [if_neg hm] at hu; simp at hu

/-- Every term the `while` loop of `CFrac` emits is at least `1`,
provided the working value entering the loop is `≤ 1` (which is the case
both for an input value `≤ 1` and for every fractional remainder). -/
theorem CFracLoop_ge_one (bigTerm : ℤ) :
    ∀ (fuel : ℕ) (m : ℚ), m ≤ 1 → ∀ u ∈ CFracLoop bigTerm fuel m, 1 ≤ u := by
  intro fuel
  induction fuel with
  | zero => intro m _ u hu; simp [CFracLoop] at hu
  | succ k ih =>
    intro m hm1 u hu
    rw [CFracLoop] at hu
    by_cases hm : 0 < m
    · rw [if_pos hm] at hu
      have hinv : (1 : ℚ) ≤ 1 / m := by
        rw [le_div_iff₀ hm]; linarith
      have hfloor : (1 : ℤ) ≤ pyIntQ (1 / m) := by
        rw [pyIntQ_eq_floor _ (by linarith)]
        exact Int.le_floor.mpr (by exact_mod_cast hinv)
      by_cases hbig : bigTerm < pyIntQ (1 / m)
      · rw [if_pos hbig] at hu; simp at hu
      · rw [if_neg hbig] at hu
        rcases List.mem_cons.mp hu with h | h
        · exact h ▸ hfloor
        · refine ih _ ?_ u h
          rw [pyIntQ_eq_floor _ (by linarith)]
          have := Int.floor_le (1 / m)
          linarith [Int.lt_floor_add_one (1 / m)]
    · rw [if_neg hm] at hu; simp at hu

/-- Length bound for the `while` loop: at most `fuel` terms. -/
theorem CFracLoop_length (bigTerm : ℤ) :
    ∀ (fuel : ℕ) (m : ℚ), (CFracLoop bigTerm fuel m).length ≤ fuel := by
  intro fuel
  induction fuel with
  | zero => intro m; simp [CFracLoop]
  | succ k ih =>
    intro m
    rw [CFracLoop]
    by_cases hm : 0 < m
    · rw [if_pos hm]
      by_cases hbig : bigTerm < pyIntQ (1 / m)
      · rw [if_pos hbig]; simp
      · rw [if_neg hbig]
        simpa [Nat.succ_le_succ_iff] using ih (1 / m - (pyIntQ (1 / m) : ℚ))
    · rw [if_neg hm]; simp

/-! Claim theorems for the expander. -/

/-- C8: `expand(1.0)` yields exactly the single term `[1]`: the
`n > 1.0` branch is skipped, the loop inverts `1` to `1`, emits `1`, and
the remainder `0` fails the loop guard `n > 0`. -/
theorem c8_expand_one : CFrac 1 1000 100 = [1] := CFrac_one_eval

/-- C3 counterexample: for `value = 5001/2` and `bigTerm = 1000` the
expansion is `[2500, 2]`, whose first term `2500` exceeds `bigTerm`,
because the integer part emitted by the `n > 1.0` branch is never checked
against `bigTerm`.  So it is false that every emitted term is
`≤ bigTerm`. -/
theorem c3_counterexample :
    ¬ (∀ t ∈ CFrac (5001 / 2) 1000 100, t ≤ 1000) := by
  rw [CFrac_big_eval]; decide

theorem CFrac_two_fifths_eval : CFrac (2 / 5) 1000 100 = [2, 2] := by
  rw [CFrac, if_neg (by norm_num : ¬ (1 : ℚ) < 2 / 5),
    CFracLoop_emit 1000 100 (2 / 5) 2 (by norm_num) (by norm_num)
      (pyIntQ_eq _ 2 (by norm_num) (by norm_num) (by norm_num))
      (by norm_num),
    CFracLoop_emit 1000 99 (1 / (2 / 5) - ((2 : ℤ) : ℚ)) 2 (by norm_num)
      (by norm_num)
      (pyIntQ_eq _ 2 (by norm_num) (by norm_num) (by norm_num))
      (by norm_num),
    CFracLoop_stop 1000 98 _ (by norm_num)]

/-- C3 (amended): every term emitted by the `while` loop of `expand` is
`≤ bigTerm` — that is every term when the value is `≤ 1`, and every term
after the first when the value is `> 1` —, because the loop checks
`a > bigTerm` and ends the sequence without emitting the oversized term.
The leading integer-part term of a value `> 1` is emitted unchecked. -/
theorem c3_loop_terms_le_bigTerm (n : ℚ) (bigTerm : ℤ) (lenLimit : ℕ)
    (_hn : 0 < n) (_hb : 0 < bigTerm) (t : ℤ)
    (ht : t ∈ (CFrac n bigTerm lenLimit).drop 1 ∨
      (n ≤ 1 ∧ t ∈ CFrac n bigTerm lenLimit)) : t ≤ bigTerm := by
  rcases ht with ht | ⟨hle, ht⟩
  · rw [CFrac] at ht
    by_cases h1 : 1 < n
    · rw [if_pos h1] at ht
      simp only [List.drop_succ_cons, List.drop_zero] at ht
      exact CFracLoop_le_bigTerm bigTerm _ _ t ht
    · rw [if_neg h1] at ht
      exact CFracLoop_le_bigTerm bigTerm _ _ t (List.mem_of_mem_drop ht)
  · rw [CFrac, if_neg (not_lt.mpr hle)] at ht
    exact CFracLoop_le_bigTerm bigTerm _ _ t ht

/-- Every term `CFrac` emits is at least `1`: the leading integer part of
a value `> 1` is `≥ 1`, and the loop terms are `≥ 1` because the working
value entering the loop never exceeds `1`. -/
theorem CFrac_terms_ge_one (n : ℚ) (bigTerm : ℤ) (lenLimit : ℕ) :
    ∀ t ∈ CFrac n bigTerm lenLimit, 1 ≤ t := by
  intro t ht
  rw [CFrac] at ht
  by_cases h1 : 1 < n
  · rw [if_pos h1] at ht
    have h0 : (0 : ℚ) ≤ n := by linarith
    rcases List.mem_cons.mp ht with h | h
    · rw [h, pyIntQ_eq_floor n h0]
      exact Int.le_floor.mpr (by exact_mod_cast le_of_lt h1)
    · rw [pyIntQ_eq_floor n h0] at h
      refine CFracLoop_ge_one bigTerm _ _ ?_ t h
      have := Int.lt_floor_add_one n
      linarith
  · rw [if_neg h1] at ht
    exact CFracLoop_ge_one bigTerm _ _ (not_lt.mp h1) t ht

/-- C3 amended-theorem witness at `value = 2/5 ≤ 1`, `bigTerm = 1000`,
`lenLimit = 100`: the expansion is `[2, 2]`, all of it emitted by the
`while` loop, and its first term `2` is indeed `≤ 1000`. -/
theorem c3_loop_terms_le_bigTerm_witness : (2 : ℤ) ≤ 1000 :=
  c3_loop_terms_le_bigTerm (2 / 5) 1000 100 (by norm_num) (by norm_num) 2
    (Or.inr ⟨by norm_num, by rw [CFrac_two_fifths_eval]; decide⟩)

/-- C4: for every positive value and positive length cap, the expansion
terminates (`CFrac` is a total function) and emits at most `lenLimit`
terms: each loop iteration consumes one unit of the budget, and the
leading integer-part term of a value `> 1` consumes one as well. -/
theorem c4_length_le_lenLimit (n : ℚ) (bigTerm : ℤ) (lenLimit : ℕ)
    (_hn : 0 < n) (hl : 0 < lenLimit) :
    (CFrac n bigTerm lenLimit).length ≤ lenLimit := by
  rw [CFrac]
  by_cases h1 : 1 < n
  · rw [if_pos h1]
    have := CFracLoop_length bigTerm (lenLimit - 1) (n - (pyIntQ n : ℚ))
    simp only [List.length_cons]
    omega
  · rw [if_neg h1]
    exact CFracLoop_length bigTerm lenLimit n

/-- C4 witness at `value = 3/2`, `lenLimit = 100`: the hypotheses hold
and the expansion `[1, 2]` indeed has at most `100` terms. -/
theorem c4_length_le_lenLimit_witness :
    (0 : ℚ) < 3 / 2 ∧ (0 : ℕ) < 100 ∧
      (CFrac (3 / 2) 1000 100).length ≤ 100 :=
  ⟨by norm_num, by norm_num,
    c4_length_le_lenLimit (3 / 2) 1000 100 (by norm_num) (by norm_num)⟩

/-- C6 counterexample: on `terms = [1, 2]` the pairs the code actually
evaluates are `[(2, 3), (1, 1)]` — the fold of the whole list first, then
of the first term alone — not the fold list `[(1, 2)]` of the suffix
`[2]` described by the claim's growth policy. -/
theorem c6_counterexample :
    CFracApproxCandidates [1, 2] ≠ specCandidates [1, 2] := by decide

/-- The fold step simplifies to a swap-and-accumulate:
`(num, den) ↦ (den, num + t·den)`. -/
theorem foldStep_eq (p : ℤ × ℤ) (t : ℤ) :
    foldStep p t = (p.2, p.1 + t * p.2) := by
  simp [foldStep]

/-- Invariant of the fold: once both components are `≥ 1` they stay so,
as long as the terms folded in are `≥ 1`. -/
theorem foldl_foldStep_pos :
    ∀ (l : List ℤ) (p : ℤ × ℤ), 1 ≤ p.1 → 1 ≤ p.2 → (∀ t ∈ l, 1 ≤ t) →
      1 ≤ (l.foldl foldStep p).1 ∧ 1 ≤ (l.foldl foldStep p).2 := by
  intro l
  induction l with
  | nil => intro p h1 h2 _; exact ⟨h1, h2⟩
  | cons t rest ih =>
    intro p h1 h2 hts
    rw [List.foldl_cons, foldStep_eq]
    refine ih _ h2 ?_ (fun u hu => hts u (List.mem_cons_of_mem t hu))
    have ht : 1 ≤ t := hts t (List.mem_cons_self t rest)
    show 1 ≤ p.1 + t * p.2
    nlinarith

/-- Folding a non-empty list of terms `≥ 1` yields `num ≥ 1` and
`den ≥ 1`; in particular the `Fraction(den, num)` built from it never
divides by zero. -/
theorem foldTerms_pos (rl : List ℤ) (hne : rl ≠ [])
    (hts : ∀ t ∈ rl, 1 ≤ t) :
    1 ≤ (foldTerms rl).1 ∧ 1 ≤ (foldTerms rl).2 := by
  cases rl with
  | nil => exact absurd rfl hne
  | cons t rest =>
    rw [foldTerms, List.foldl_cons, foldStep_eq]
    refine foldl_foldStep_pos rest _ (by norm_num) ?_
      (fun u hu => hts u (List.mem_cons_of_mem t hu))
    have := hts t (List.mem_cons_self t rest)
    simpa using this

/-- The loop of `CFracApprox` evaluates exactly the folds of the suffixes
of the current reversed list, longest suffix (the whole list) first. -/
theorem candidatesLoop_eq_map_range :
    ∀ rl : List ℤ, rl ≠ [] →
      candidatesLoop rl =
        (List.range rl.length).map (fun i => foldTerms (rl.drop i)) := by
  intro rl
  induction rl with
  | nil => intro h; exact absurd rfl h
  | cons t rest ih =>
    intro _
    cases rest with
    | nil => simp [candidatesLoop, List.range_succ]
    | cons u rest2 =>
      rw [candidatesLoop, ih (by simp),
        show (t :: u :: rest2).length = (u :: rest2).length + 1 from rfl,
        List.range_succ_eq_map, List.map_cons, List.map_map]
      simp only [List.drop_zero]
      congr 1

/-- C10: every term of `expand(value)` for `value > 0` is a strictly
positive integer, and (the expansion being non-empty, as witnessed by the
member `t`) the fold of the full reversed term sequence ends with
`num ≥ 1`, so the `Fraction(den, num)` built by `approximate` from it
never divides by zero. -/
theorem c10_terms_positive (n : ℚ) (bigTerm : ℤ) (lenLimit : ℕ)
    (_hn : 0 < n) (t : ℤ) (ht : t ∈ CFrac n bigTerm lenLimit) :
    1 ≤ t ∧ 1 ≤ (foldTerms (CFrac n bigTerm lenLimit).reverse).1 := by
  refine ⟨CFrac_terms_ge_one n bigTerm lenLimit t ht, ?_⟩
  refine (foldTerms_pos _ ?_ ?_).1
  · simpa using List.ne_nil_of_mem ht
  · intro u hu
    exact CFrac_terms_ge_one n bigTerm lenLimit u (List.mem_reverse.mp hu)

/-- C10 witness at `value = 3/2`: the term `1` of the expansion `[1, 2]`
is `≥ 1` and the fold of the reversed expansion has `num ≥ 1`. -/
theorem c10_terms_positive_witness :
    (1 : ℤ) ≤ 1 ∧ 1 ≤ (foldTerms (CFrac (3 / 2) 1000 100).reverse).1 :=
  c10_terms_positive (3 / 2) 1000 100 (by norm_num) 1
    (by rw [CFrac_three_halves_eval]; decide)

/-- C6 (amended): the candidate search evaluates the folds of the
*prefixes* of `terms`, longest first: it starts with the whole term list,
after each evaluation drops the innermost (last) term and re-folds from
scratch, and stops after evaluating the one-term prefix exactly once.
Equivalently, the evaluated candidates are the reversed prefix folds in
decreasing prefix length. -/
theorem c6_candidates_are_prefixes (cf : List ℤ) (hne : cf ≠ []) :
    CFracApproxCandidates cf =
      ((List.range' 1 cf.length).map
        (fun k => foldTerms ((cf.take k).reverse))).reverse := by
  rw [CFracApproxCandidates,
    candidatesLoop_eq_map_range cf.reverse (by simpa using hne),
    List.length_reverse, ← List.map_reverse, List.reverse_range',
    List.map_map]
  apply List.map_congr_left
  intro i hi
  have hi2 : i < cf.length := List.mem_range.mp hi
  simp only [Function.comp_def]
  rw [List.reverse_take, show cf.length - (1 + cf.length - 1 - i) = i by omega]

/-- C6 amended-theorem witness at `terms = [1, 2]`: the evaluated
candidates equal the reversed list of prefix folds. -/
theorem c6_candidates_are_prefixes_witness :
    CFracApproxCandidates [1, 2] =
      ((List.range' 1 ([1, 2] : List ℤ).length).map
        (fun k => foldTerms ((([1, 2] : List ℤ).take k).reverse))).reverse :=
  c6_candidates_are_prefixes [1, 2] (by decide)

/-- The empty fold gives `(num, den) = (0, 1)`, which passes the size
filter and then raises in `Fraction(den, num)` because `num = 0`. -/
theorem evalCandidate_empty (val : ℝ) :
    evalCandidate val (foldTerms []) = none := by
  have h : foldTerms [] = (0, 1) := rfl
  rw [h, evalCandidate, if_pos (by norm_num), if_pos rfl]

/-- On an empty term list `CFracApprox` always raises. -/
theorem approxLoop_nil (val : ℝ) : approxLoop val [] = none := by
  rw [approxLoop, evalCandidate_empty]

/-- A candidate whose components are both `≥ 1` never raises: it is
either filtered out or appended. -/
theorem evalCandidate_ne_none (val : ℝ) (hval : 0 < val) (p : ℤ × ℤ)
    (h1 : 1 ≤ p.1) (h2 : 1 ≤ p.2) : evalCandidate val p ≠ none := by
  rw [evalCandidate]
  by_cases hs : p.2 ≤ 1024 ∧ p.1 ≤ 1024
  · rw [if_pos hs, if_neg (by omega : ¬ p.1 = 0),
      if_pos ⟨div_pos (by exact_mod_cast h2) (by exact_mod_cast h1), hval⟩]
    split_ifs <;> simp
  · rw [if_neg hs]; simp

/-- The loop of `CFracApprox` never raises when all terms are `≥ 1` and
the list is non-empty: every fold it evaluates has both components
`≥ 1`. -/
theorem approxLoop_pos_some (val : ℝ) (hval : 0 < val) :
    ∀ rl : List ℤ, rl ≠ [] → (∀ t ∈ rl, 1 ≤ t) →
      ∃ l, approxLoop val rl = some l := by
  intro rl
  induction rl with
  | nil => intro h; exact absurd rfl h
  | cons t rest ih =>
    intro _ hpos
    have hfold := foldTerms_pos (t :: rest) (by simp) hpos
    cases rest with
    | nil =>
      rw [approxLoop]
      cases he : evalCandidate val (foldTerms [t]) with
      | none => exact absurd he (evalCandidate_ne_none val hval _ hfold.1 hfold.2)
      | some o => exact ⟨o.toList, rfl⟩
    | cons u rest2 =>
      obtain ⟨l2, hl2⟩ := ih (by simp)
        (fun v hv => hpos v (List.mem_cons_of_mem t hv))
      rw [approxLoop]
      cases he : evalCandidate val (foldTerms (t :: u :: rest2)) with
      | none => exact absurd he (evalCandidate_ne_none val hval _ hfold.1 hfold.2)
      | some o => exact ⟨o.toList ++ l2, by rw [hl2]; rfl⟩

/-- The result collected by the loop is the filter-map of the suffix
folds of `rl`, longest suffix first. -/
theorem approxLoop_eq_filterMap (val : ℝ) :
    ∀ (rl : List ℤ) (l : List (ℚ × ℤ)), approxLoop val rl = some l →
      l = (List.range rl.length).filterMap
        (fun i => keptApprox val (foldTerms (rl.drop i))) := by
  intro rl
  induction rl with
  | nil =>
    intro l hl
    rw [approxLoop_nil] at hl
    exact absurd hl (by simp)
  | cons t rest ih =>
    cases rest with
    | nil =>
      intro l hl
      rw [approxLoop] at hl
      cases he : evalCandidate val (foldTerms [t]) with
      | none => rw [he] at hl; simp at hl
      | some o =>
        rw [he] at hl
        simp only [Option.some.injEq] at hl
        subst hl
        have hk : keptApprox val (foldTerms [t]) = o := by
          rw [keptApprox, he]; rfl
        cases o with
        | none => simp [List.range_succ, List.filterMap_cons, hk]
        | some x => simp [List.range_succ, List.filterMap_cons, hk]
    | cons u rest2 =>
      intro l hl
      rw [approxLoop] at hl
      cases he : evalCandidate val (foldTerms (t :: u :: rest2)) with
      | none => rw [he] at hl; simp at hl
      | some o =>
        rw [he] at hl
        cases hr : approxLoop val (u :: rest2) with
        | none => rw [hr] at hl; simp at hl
        | some l2 =>
          rw [hr] at hl
          simp only [Option.map_some', Option.some.injEq] at hl
          subst hl
          rw [ih l2 hr,
            show (t :: u :: rest2).length = (u :: rest2).length + 1 from rfl,
            List.range_succ_eq_map, List.filterMap_cons]
          have hk : keptApprox val (foldTerms ((t :: u :: rest2).drop 0)) = o := by
            rw [List.drop_zero, keptApprox, he]; rfl
          rw [List.filterMap_map]
          cases o with
          | none => rw [hk]; rfl
          | some x => rw [hk]; rfl

/-- A successful `CFracApprox` run returns exactly the kept
approximations of the reversed-prefix folds, in increasing prefix
length: prefix length `1` first, the full sequence last. -/
theorem CFracApprox_eq_filterMap (val : ℝ) (cf : List ℤ)
    (lst : List (ℚ × ℤ)) (h : CFracApprox val cf = some lst) :
    lst = (List.range' 1 cf.length).filterMap
      (fun k => keptApprox val (foldTerms ((cf.take k).reverse))) := by
  rw [CFracApprox] at h
  cases hr : approxLoop val cf.reverse with
  | none => rw [hr] at h; simp at h
  | some l =>
    rw [hr] at h
    simp only [Option.map_some', Option.some.injEq] at h
    subst h
    rw [approxLoop_eq_filterMap val cf.reverse l hr, List.length_reverse,
      ← List.filterMap_reverse, List.range_eq_range', List.reverse_range',
      List.filterMap_map, List.range'_eq_map_range, List.filterMap_map]
    apply List.filterMap_congr
    intro i hi
    have hi2 : i < cf.length := List.mem_range.mp hi
    simp only [Function.comp_def]
    rw [List.reverse_take,
      show cf.length - (1 + i) = 0 + cf.length - 1 - i by omega]

/-- C7: the list `approximate` returns is ordered with the
approximations derived from longer prefixes of the original term
sequence last: position `k` of the filter-map below corresponds to the
prefix of length `k`, and the lengths run upward from `1` to the full
sequence, so the approximation using the fewest terms comes first. -/
theorem c7_longer_prefixes_last (val : ℝ) (cf : List ℤ)
    (lst : List (ℚ × ℤ)) (h : CFracApprox val cf = some lst) :
    lst = (List.range' 1 cf.length).filterMap
      (fun k => keptApprox val (foldTerms ((cf.take k).reverse))) :=
  CFracApprox_eq_filterMap val cf lst h

/-- A kept candidate passed every filter: its components were bounded by
`1024`, its `num` was non-zero, the fraction `den/num` was positive, its
attached error is the truncated cents error, and the squared error passed
the `30`-cent test. -/
theorem keptApprox_some (val : ℝ) (p : ℤ × ℤ) (f : ℚ) (e : ℤ)
    (h : keptApprox val p = some (f, e)) :
    p.2 ≤ 1024 ∧ p.1 ≤ 1024 ∧ p.1 ≠ 0 ∧ f = (p.2 : ℚ) / (p.1 : ℚ) ∧
      0 < f ∧ e = centsErr val f ∧ e * e < 30 * 30 := by
  rw [keptApprox, evalCandidate] at h
  by_cases hs : p.2 ≤ 1024 ∧ p.1 ≤ 1024
  · rw [if_pos hs] at h
    by_cases hz : p.1 = 0
    · rw [if_pos hz] at h; simp at h
    · rw [if_neg hz] at h
      by_cases hp : 0 < (p.2 : ℚ) / (p.1 : ℚ) ∧ 0 < val
      · rw [if_pos hp] at h
        by_cases herr : centsErr val ((p.2 : ℚ) / (p.1 : ℚ)) *
            centsErr val ((p.2 : ℚ) / (p.1 : ℚ)) < 30 * 30
        · rw [if_pos herr] at h
          simp only [Option.getD_some, Option.some.injEq, Prod.mk.injEq] at h
          obtain ⟨hf, he⟩ := h
          subst hf; subst he
          exact ⟨hs.1, hs.2, hz, rfl, hp.1, rfl, herr⟩
        · rw [if_neg herr] at h; simp at h
      · rw [if_neg hp] at h; simp at h
  · rw [if_neg hs] at h; simp at h

/-- The numerator and denominator of the reduced fraction `a / b` divide
`a` and `b` respectively. -/
theorem div_num_den_dvd (a b : ℤ) (hb : b ≠ 0) :
    ((a : ℚ) / (b : ℚ)).num ∣ a ∧ ((((a : ℚ) / (b : ℚ)).den : ℤ)) ∣ b := by
  constructor
  · have := Rat.num_dvd a hb
    rwa [Rat.divInt_eq_div] at this
  · have := Rat.den_dvd a b
    rwa [Rat.divInt_eq_div] at this

/-- C1: whenever `approximate(value, expand(value))` returns (i.e. does
not raise), every returned approximation has reduced numerator `≤ 1024`,
reduced denominator `≤ 1024`, and cents error of absolute value `< 30`:
the size filter bounds the unreduced pair, reduction only shrinks it, and
the squared-error filter bounds the attached integer error. -/
theorem c1_result_bounds (val : ℚ) (_hval : 0 < val) (lst : List (ℚ × ℤ))
    (hl : CFracApprox (val : ℝ) (CFrac val 1000 100) = some lst)
    (f : ℚ) (e : ℤ) (hm : (f, e) ∈ lst) :
    f.num ≤ 1024 ∧ (f.den : ℤ) ≤ 1024 ∧ |e| < 30 := by
  rw [CFracApprox_eq_filterMap _ _ _ hl] at hm
  obtain ⟨k, hk, hkept⟩ := List.mem_filterMap.mp hm
  have hkr : 1 ≤ k ∧ k < 1 + (CFrac val 1000 100).length :=
    List.mem_range'_1.mp hk
  have hterms : ∀ t ∈ ((CFrac val 1000 100).take k).reverse, 1 ≤ t := by
    intro t ht
    exact CFrac_terms_ge_one val 1000 100 t
      (List.mem_of_mem_take (List.mem_reverse.mp ht))
  have htake_ne : ((CFrac val 1000 100).take k).reverse ≠ [] := by
    apply List.ne_nil_of_length_pos
    simp only [List.length_reverse, List.length_take]
    omega
  have hfold := foldTerms_pos _ htake_ne hterms
  obtain ⟨hden, hnum, hnz, hf, hfpos, he, herr⟩ :=
    keptApprox_some (val : ℝ) _ f e hkept
  have hdvd := div_num_den_dvd
    (foldTerms (((CFrac val 1000 100).take k).reverse)).2
    (foldTerms (((CFrac val 1000 100).take k).reverse)).1 (by omega)
  refine ⟨?_, ?_, ?_⟩
  · calc f.num ≤ (foldTerms (((CFrac val 1000 100).take k).reverse)).2 :=
          Int.le_of_dvd (by omega) (hf ▸ hdvd.1)
      _ ≤ 1024 := hden
  · calc (f.den : ℤ) ≤ (foldTerms (((CFrac val 1000 100).take k).reverse)).1 :=
          Int.le_of_dvd (by omega) (hf ▸ hdvd.2)
      _ ≤ 1024 := hnum
  · nlinarith [abs_mul_abs_self e, abs_nonneg e]

/-- C2 counterexample: `approximate` raises on the empty term sequence
(`ZeroDivisionError` from `Fraction(1, 0)`: the empty fold is
`(num, den) = (0, 1)`, which passes the size filter with `num = 0`), even
for a positive value — and `expand` can produce the empty sequence (for
example for `value = 1/2000` with the default `bigTerm = 1000`). -/
theorem c2_counterexample : CFracApprox (3 / 2 : ℝ) [] = none := by
  rw [CFracApprox, List.reverse_nil, approxLoop_nil]
  rfl

/-- C2 (amended): `approximate(value, terms)` raises no error for any
positive value and any *non-empty* sequence of *strictly positive*
integer terms — which covers every non-empty sequence `expand` can
produce; rejected candidates simply contribute nothing.  (On the empty
sequence, or term sequences driving the fold numerator to `0`, it
raises.) -/
theorem c2_no_error_on_positive_terms (val : ℝ) (hval : 0 < val)
    (cf : List ℤ) (hne : cf ≠ []) (hpos : ∀ t ∈ cf, 1 ≤ t) :
    ∃ lst, CFracApprox val cf = some lst := by
  obtain ⟨l, hl⟩ := approxLoop_pos_some val hval cf.reverse
    (by simpa using hne) (fun t ht => hpos t (List.mem_reverse.mp ht))
  exact ⟨l.reverse, by rw [CFracApprox, hl]; rfl⟩

/-- C2 amended-theorem witness at `value = 3/2`, `terms = [1, 2]`: the
call returns a list rather than raising. -/
theorem c2_no_error_on_positive_terms_witness :
    ∃ lst, CFracApprox (3 / 2 : ℝ) [1, 2] = some lst :=
  c2_no_error_on_positive_terms (3 / 2) (by norm_num) [1, 2] (by decide)
    (by decide)

/-- Bounds pinning down `1200·log2(3/2) ≈ 701.955` between `701.5` and
`702`, via the integer inequalities `2^3803 < 3^2400` and
`3^1200 < 2^1902`. -/
theorem logb_three_halves_bounds :
    (1403 / 2 : ℝ) < 1200 * Real.logb 2 (3 / 2) ∧
      1200 * Real.logb 2 (3 / 2) < 702 := by
  have hb : (1 : ℝ) < 2 := one_lt_two
  have e1 : Real.logb 2 ((2 : ℝ) ^ (1403 : ℕ)) = 1403 := by
    rw [Real.logb_pow, Real.logb_self_eq_one hb]; norm_num
  have e2 : Real.logb 2 ((3 / 2 : ℝ) ^ (2400 : ℕ)) =
      2400 * Real.logb 2 (3 / 2) := by
    rw [Real.logb_pow]; norm_num
  have e3 : Real.logb 2 ((3 / 2 : ℝ) ^ (1200 : ℕ)) =
      1200 * Real.logb 2 (3 / 2) := by
    rw [Real.logb_pow]; norm_num
  have e4 : Real.logb 2 ((2 : ℝ) ^ (702 : ℕ)) = 702 := by
    rw [Real.logb_pow, Real.logb_self_eq_one hb]; norm_num
  constructor
  · have h1 : ((2 : ℝ) ^ (1403 : ℕ)) < (3 / 2 : ℝ) ^ (2400 : ℕ) := by norm_num
    have h2 := Real.logb_lt_logb hb (by positivity) h1
    rw [e1, e2] at h2
    linarith
  · have h1 : ((3 / 2 : ℝ) ^ (1200 : ℕ)) < (2 : ℝ) ^ (702 : ℕ) := by norm_num
    have h2 := Real.logb_lt_logb hb (by positivity) h1
    rw [e3, e4] at h2
    linarith

/-- The code's cents error of the exact candidate `3/2` against the value
`3/2` is `0`. -/
theorem centsErr_self : centsErr (3 / 2 : ℝ) (3 / 2 : ℚ) = 0 := by
  rw [centsErr, show (((3 / 2 : ℚ)) : ℝ) = (3 / 2 : ℝ) by norm_num,
    sub_self, zero_mul, pyIntR, if_neg (by norm_num : ¬ (0 : ℝ) < 0)]
  simp

/-- The code's cents error of the candidate `1` against the value `3/2`
is `701`: truncation toward zero of `-701.955...`. -/
theorem centsErr_one : centsErr (3 / 2 : ℝ) 1 = 701 := by
  obtain ⟨hlo, hhi⟩ := logb_three_halves_bounds
  rw [centsErr, Rat.cast_one, Real.logb_one,
    show ((0 : ℝ) - Real.logb 2 (3 / 2)) * 1200 =
      -(1200 * Real.logb 2 (3 / 2)) by ring,
    pyIntR, if_pos (by linarith : -(1200 * Real.logb 2 ((3 : ℝ) / 2)) < 0),
    Int.ceil_neg]
  have hfl : ⌊1200 * Real.logb 2 ((3 : ℝ) / 2)⌋ = 701 := by
    rw [Int.floor_eq_iff]
    push_cast
    constructor <;> linarith
  rw [hfl]
  norm_num

/-- The claim's rounded cents error of the candidate `1` against the
value `3/2` is `702`: rounding `-701.955...` to the nearest integer. -/
theorem specCentsErr_one : specCentsErr (3 / 2 : ℝ) 1 = 702 := by
  obtain ⟨hlo, hhi⟩ := logb_three_halves_bounds
  rw [specCentsErr, Rat.cast_one, Real.logb_one,
    show ((0 : ℝ) - Real.logb 2 (3 / 2)) * 1200 =
      -(1200 * Real.logb 2 (3 / 2)) by ring,
    round_eq]
  have hfl : ⌊-(1200 * Real.logb 2 ((3 : ℝ) / 2)) + 1 / 2⌋ = -702 := by
    rw [Int.floor_eq_iff]
    push_cast
    constructor <;> linarith
  rw [hfl]
  norm_num

/-- Candidate `(num, den) = (2, 3)` (the fold of `[2, 1]`) against the
value `3/2`: accepted and appended as `3/2` with error `0`. -/
theorem evalCandidate_23 :
    evalCandidate (3 / 2 : ℝ) ((2 : ℤ), (3 : ℤ)) =
      some (some ((3 / 2 : ℚ), 0)) := by
  have hq : ((((2 : ℤ), (3 : ℤ)).2 : ℚ) / (((2 : ℤ), (3 : ℤ)).1 : ℚ)) =
      (3 / 2 : ℚ) := by norm_num
  rw [evalCandidate, hq, if_pos (by norm_num), if_neg (by norm_num),
    if_pos ⟨by norm_num, by norm_num⟩, centsErr_self,
    if_pos (by norm_num : (0 : ℤ) * 0 < 30 * 30)]

/-- Candidate `(num, den) = (1, 1)` (the fold of `[1]`) against the
value `3/2`: accepted by the size filter but rejected by the error
filter, since its attached error is `701`. -/
theorem evalCandidate_11 :
    evalCandidate (3 / 2 : ℝ) ((1 : ℤ), (1 : ℤ)) = some none := by
  have hq : ((((1 : ℤ), (1 : ℤ)).2 : ℚ) / (((1 : ℤ), (1 : ℤ)).1 : ℚ)) =
      (1 : ℚ) := by norm_num
  rw [evalCandidate, hq, if_pos (by norm_num), if_neg (by norm_num),
    if_pos ⟨by norm_num, by norm_num⟩, centsErr_one,
    if_neg (by norm_num : ¬ (701 : ℤ) * 701 < 30 * 30)]

/-- Full evaluation of `approximate(1.5, [1, 2])`: the only kept
approximation is `3/2` with error `0` (rendered `"3/2(0)"`). -/
theorem CFracApprox_three_halves :
    CFracApprox (3 / 2 : ℝ) [1, 2] = some [((3 / 2 : ℚ), 0)] := by
  rw [CFracApprox, show ([1, 2] : List ℤ).reverse = [2, 1] from rfl,
    approxLoop, show foldTerms [2, 1] = ((2 : ℤ), (3 : ℤ)) from rfl,
    evalCandidate_23]
  show ((approxLoop (3 / 2 : ℝ) [1]).map
    (fun l => [((3 / 2 : ℚ), (0 : ℤ))] ++ l)).map List.reverse =
      some [((3 / 2 : ℚ), 0)]
  rw [approxLoop, show foldTerms [1] = ((1 : ℤ), (1 : ℤ)) from rfl,
    evalCandidate_11]
  rfl

/-- C5 counterexample: for `value = 3/2` the candidate `(num, den) =
(1, 1)` — the fold of the single-term list `[1]` — passes the size
filter, and the error the code attaches to it is
`-int(1200·(log2(1) - log2(3/2))) = 701` (truncation toward zero of
`-701.955...`), while the claim's `-round(...)` is `702`.  So the
attached error is *not* the rounded-to-nearest value. -/
theorem c5_counterexample :
    foldTerms [1] = ((1 : ℤ), (1 : ℤ)) ∧
      ((1 : ℤ), (1 : ℤ)).2 ≤ 1024 ∧ ((1 : ℤ), (1 : ℤ)).1 ≤ 1024 ∧
      centsErr (3 / 2 : ℝ) 1 = 701 ∧ specCentsErr (3 / 2 : ℝ) 1 = 702 ∧
      (701 : ℤ) ≠ 702 :=
  ⟨rfl, by norm_num, by norm_num, centsErr_one, specCentsErr_one,
    by norm_num⟩

/-- C5 (amended): the cents error attached to every approximation the
code returns is `-int(1200·(log2(candidate) - log2(value)))` where `int`
*truncates toward zero* (Python `int`), not rounding to nearest; the sign
flip is as the claim states. -/
theorem c5_err_truncated (val : ℝ) (cf : List ℤ) (lst : List (ℚ × ℤ))
    (h : CFracApprox val cf = some lst) (f : ℚ) (e : ℤ)
    (hm : (f, e) ∈ lst) :
    e = - pyIntR ((Real.logb 2 (f : ℝ) - Real.logb 2 val) * 1200) := by
  rw [CFracApprox_eq_filterMap val cf lst h] at hm
  obtain ⟨k, hk, hkept⟩ := List.mem_filterMap.mp hm
  obtain ⟨_, _, _, _, _, he, _⟩ := keptApprox_some val _ f e hkept
  rw [he, centsErr]

/-- C5 amended-theorem witness: for `value = 3/2`, `terms = [1, 2]`, the
returned error `0` of the approximation `3/2` is the truncated scaled
log difference. -/
theorem c5_err_truncated_witness :
    (0 : ℤ) = - pyIntR ((Real.logb 2 ((3 / 2 : ℚ) : ℝ) -
      Real.logb 2 (3 / 2 : ℝ)) * 1200) :=
  c5_err_truncated (3 / 2 : ℝ) [1, 2] [((3 / 2 : ℚ), 0)]
    CFracApprox_three_halves (3 / 2) 0 (by simp)

/-- C9: for `value = 1.5`, `approximate(1.5, expand(1.5))` succeeds and
its result contains the approximation `3/2` with zero cents error — the
pair the driver renders as `"3/2(0)"`. -/
theorem c9_perfect_fifth :
    ∃ lst, CFracApprox (3 / 2 : ℝ) (CFrac (3 / 2) 1000 100) = some lst ∧
      ((3 / 2 : ℚ), (0 : ℤ)) ∈ lst := by
  refine ⟨[((3 / 2 : ℚ), 0)], ?_, by simp⟩
  rw [CFrac_three_halves_eval]
  exact CFracApprox_three_halves

/-- C1 witness at `value = 3/2`: the returned approximation `(3/2, 0)`
has numerator `3 ≤ 1024`, denominator `2 ≤ 1024` and `|0| < 30`. -/
theorem c1_result_bounds_witness :
    0 < (3 / 2 : ℚ) ∧ (3 / 2 : ℚ).num ≤ 1024 ∧
      (((3 / 2 : ℚ).den) : ℤ) ≤ 1024 ∧ |(0 : ℤ)| < 30 := by
  refine ⟨by norm_num, ?_⟩
  refine c1_result_bounds (3 / 2) (by norm_num) [((3 / 2 : ℚ), 0)] ?_
    (3 / 2) 0 (by simp)
  rw [show (((3 / 2 : ℚ)) : ℝ) = (3 / 2 : ℝ) by norm_num,
    CFrac_three_halves_eval]
  exact CFracApprox_three_halves

/-- C7 witness at `value = 3/2`, `terms = [1, 2]`: the returned list
equals the filter-map over prefix lengths `1, 2` in increasing order. -/
theorem c7_longer_prefixes_last_witness :
    [((3 / 2 : ℚ), (0 : ℤ))] =
      (List.range' 1 ([1, 2] : List ℤ).length).filterMap
        (fun k => keptApprox (3 / 2 : ℝ)
          (foldTerms ((([1, 2] : List ℤ).take k).reverse))) :=
  c7_longer_prefixes_last (3 / 2 : ℝ) [1, 2] [((3 / 2 : ℚ), 0)]
    CFracApprox_three_halves
